import Mathlib

/-!
Verification of the whisper-script audio pipeline.

This file shallowly embeds the core pure logic of the repository:

* `src/preprocessing/audio_splitter.py` — silence-event parsing
  (`detect_silences`), the segmentation planner (`calculate_split_points`),
  and the per-window filter/extract loop (`process_audio_file`);
* `pipelines/multilang_batch.py` — transcript reassembly
  (`merge_transcripts`).

Time values (Python floats) are modelled as rationals `ℚ`; external tool
invocations (ffmpeg/ffprobe, file reads) are modelled as oracle parameters;
fallible Python code (uncaught exceptions) is modelled with `Except`.
-/

namespace WhisperScript

/-- Model of the `SilenceSegment` dataclass of `audio_splitter.py`: a detected silence
period with `start`, `end`, `duration` in seconds. -/
structure SilenceSegment where
  start : ℚ
  stop : ℚ
  duration : ℚ
  deriving Repr, DecidableEq

/-- Model of the `AudioSegment` dataclass of `audio_splitter.py`: metadata of one split
audio segment. -/
structure AudioSegment where
  filename : String
  start_time : ℚ
  end_time : ℚ
  duration : ℚ
  segment_index : ℕ
  deriving Repr, DecidableEq

/-- The `while current < total_duration` tiling loop in
`calculate_split_points` (the "no silences" branch):
`end = min(current + max_segment_length, total_duration)`; append
`(current, end)`; `current = end`.  The Python loop diverges when
`max_segment_length ≤ 0`, so the model carries explicit `fuel`; on fuel
exhaustion the remaining (divergent) tail is cut off.  Theorems about this
branch assume enough fuel for the loop to finish. -/
def splitByTime (maxLen totalDuration : ℚ) : ℕ → ℚ → List (ℚ × ℚ)
  | 0, _ => []
  | fuel + 1, current =>
    if current < totalDuration then
      let e := min (current + maxLen) totalDuration
      (current, e) :: splitByTime maxLen totalDuration fuel e
    else []

/-- The `for silence in silences` loop of `calculate_split_points` plus the
trailing "final segment" append: at each silence, the candidate split point
is the midpoint `(start+end)/2`; commit `(current_start, split_point)` when
`segment_duration >= min_segment_length`, else when
`segment_duration >= max_segment_length` (the `elif` force-split branch);
after the loop, append `(current_start, total_duration)` when
`current_start < total_duration`. -/
def splitLoop (minLen maxLen totalDuration : ℚ) :
    List SilenceSegment → ℚ → List (ℚ × ℚ)
  | [], current =>
    if current < totalDuration then [(current, totalDuration)] else []
  | s :: rest, current =>
    let sp := (s.start + s.stop) / 2
    let d := sp - current
    if d ≥ minLen then
      (current, sp) :: splitLoop minLen maxLen totalDuration rest sp
    else if d ≥ maxLen then
      (current, sp) :: splitLoop minLen maxLen totalDuration rest sp
    else
      splitLoop minLen maxLen totalDuration rest current

/-- Reference planner loop written from the spec's words (§4.2): commit a
window at a silence midpoint exactly when the accumulated duration is
`≥ min_len`; no force-split branch.  Used to state that the code's `elif`
branch is unreachable when `min_len ≤ max_len`. -/
def splitLoopSpec (minLen totalDuration : ℚ) :
    List SilenceSegment → ℚ → List (ℚ × ℚ)
  | [], current =>
    if current < totalDuration then [(current, totalDuration)] else []
  | s :: rest, current =>
    let sp := (s.start + s.stop) / 2
    if sp - current ≥ minLen then
      (current, sp) :: splitLoopSpec minLen totalDuration rest sp
    else
      splitLoopSpec minLen totalDuration rest current

/-- Model of `calculate_split_points(silences, total_duration, min_segment_length,
max_segment_length)`: empty silence list tiles by `max_segment_length`
(with `fuel` bounding the while loop, see `splitByTime`); otherwise walk
the silences accumulating from `current_start = 0.0`. -/
def calculateSplitPoints (fuel : ℕ) (silences : List SilenceSegment)
    (totalDuration minLen maxLen : ℚ) : List (ℚ × ℚ) :=
  if silences.isEmpty then
    splitByTime maxLen totalDuration fuel 0
  else
    splitLoop minLen maxLen totalDuration silences 0

/-! ### Structural lemmas about the planner -/

/-- In a contiguous chain of windows each of nonnegative length, the first
window ends no later than any later window starts. -/
lemma chain_head_le (a : ℚ × ℚ) (l : List (ℚ × ℚ))
    (hc : List.Chain' (fun x y => x.2 = y.1) (a :: l))
    (hlen : ∀ w ∈ a :: l, w.1 ≤ w.2) :
    ∀ b ∈ l, a.2 ≤ b.1 := by
  induction l generalizing a with
  | nil => intro b hb; cases hb
  | cons c l ih =>
    intro b hb
    have hac : a.2 = c.1 := (List.chain'_cons.mp hc).1
    rcases List.mem_cons.mp hb with hb | hb
    · rw [hb]; exact hac.le
    · have hcb : c.2 ≤ b.1 :=
        ih c (List.chain'_cons.mp hc).2
          (fun w hw => hlen w (List.mem_cons_of_mem a hw)) b hb
      have hcc : c.1 ≤ c.2 := hlen c (by simp)
      calc a.2 = c.1 := hac
        _ ≤ c.2 := hcc
        _ ≤ b.1 := hcb

/-- A contiguous chain of windows of nonnegative length is pairwise
non-overlapping: every earlier window ends no later than any later one
starts. -/
lemma chain_contig_pairwise (l : List (ℚ × ℚ))
    (hc : List.Chain' (fun x y => x.2 = y.1) l)
    (hlen : ∀ w ∈ l, w.1 ≤ w.2) :
    List.Pairwise (fun x y => x.2 ≤ y.1) l := by
  induction l with
  | nil => exact List.Pairwise.nil
  | cons a l ih =>
    refine List.pairwise_cons.mpr ⟨chain_head_le a l hc hlen, ?_⟩
    exact ih (List.chain'_cons'.mp hc).2
      (fun w hw => hlen w (List.mem_cons_of_mem a hw))

/-- A nonempty tiling run implies its start is before `totalDuration`. -/
lemma splitByTime_ne_nil_imp (maxLen td : ℚ) (fuel : ℕ) (current : ℚ)
    (h : splitByTime maxLen td fuel current ≠ []) : current < td := by
  cases fuel with
  | zero => simp [splitByTime] at h
  | succ fuel =>
    by_contra hlt
    simp [splitByTime, if_neg hlt] at h

/-- Full characterisation of the `while` tiling loop of
`calculate_split_points` under sufficient fuel: it is empty iff the start
is already past `totalDuration`, every window runs from its start to
`min (start + maxLen) totalDuration`, windows chain contiguously, the
first starts at `current`, and the last ends at `totalDuration`. -/
lemma splitByTime_spec (maxLen td : ℚ) (hmax : 0 < maxLen) :
    ∀ (fuel : ℕ) (current : ℚ), td ≤ current + fuel * maxLen →
      (splitByTime maxLen td fuel current = [] ↔ ¬ current < td) ∧
      (∀ w ∈ splitByTime maxLen td fuel current,
        w.1 ≤ w.2 ∧ w.2 = min (w.1 + maxLen) td) ∧
      List.Chain' (fun x y => x.2 = y.1) (splitByTime maxLen td fuel current) ∧
      (∀ w, (splitByTime maxLen td fuel current).head? = some w →
        w.1 = current) ∧
      (∀ w, (splitByTime maxLen td fuel current).getLast? = some w →
        w.2 = td) := by
  intro fuel
  induction fuel with
  | zero =>
    intro current hfuel
    have hstop : ¬ current < td := by push_cast at hfuel; linarith
    refine ⟨by simp [splitByTime, hstop], by simp [splitByTime], ?_, ?_, ?_⟩
    · simp [splitByTime]
    · simp [splitByTime]
    · simp [splitByTime]
  | succ fuel ih =>
    intro current hfuel
    by_cases hlt : current < td
    · have hed : splitByTime maxLen td (fuel + 1) current =
          (current, min (current + maxLen) td) ::
            splitByTime maxLen td fuel (min (current + maxLen) td) := by
        simp [splitByTime, if_pos hlt]
      set e := min (current + maxLen) td with he
      have hfuel' : td ≤ e + fuel * maxLen := by
        rcases le_total (current + maxLen) td with hc | hc
        · have heq : e = current + maxLen := min_eq_left hc
          rw [heq]
          push_cast at hfuel ⊢
          linarith
        · have heq : e = td := min_eq_right hc
          rw [heq]
          have : (0:ℚ) ≤ fuel * maxLen := by positivity
          linarith
      obtain ⟨ihnil, ihmem, ihchain, ihhead, ihlast⟩ := ih e hfuel'
      have hce : current ≤ e := le_min (by linarith) hlt.le
      constructor
      · rw [hed]; simp [hlt]
      refine ⟨?_, ?_, ?_, ?_⟩
      · intro w hw
        rw [hed] at hw
        rcases List.mem_cons.mp hw with hw | hw
        · subst hw; exact ⟨hce, rfl⟩
        · exact ihmem w hw
      · rw [hed]
        refine List.chain'_cons'.mpr ⟨?_, ihchain⟩
        intro h hh
        exact (ihhead h hh).symm
      · intro w hw
        rw [hed] at hw
        simp only [List.head?_cons, Option.some.injEq] at hw
        rw [← hw]
      · intro w hw
        rw [hed] at hw
        rcases hcase : splitByTime maxLen td fuel e with _ | ⟨b, tl⟩
        · rw [hcase] at hw
          simp only [List.getLast?_singleton, Option.some.injEq] at hw
          have : ¬ e < td := (ihnil).mp hcase
          have : e = td := le_antisymm (min_le_right _ _) (not_lt.mp this)
          rw [← hw]
          exact this
        · rw [hcase] at hw
          rw [List.getLast?_cons_cons] at hw
          exact ihlast w (hcase ▸ hw)
    · have hnil : splitByTime maxLen td (fuel + 1) current = [] := by
        simp [splitByTime, if_neg hlt]
      refine ⟨by simp [hnil, hlt], by simp [hnil], by simp [hnil], ?_, ?_⟩
      · simp [hnil]
      · simp [hnil]

/-- The midpoint of a silence lies between its endpoints. -/
lemma silence_mid_bounds (s : SilenceSegment) (h : s.start ≤ s.stop) :
    s.start ≤ (s.start + s.stop) / 2 ∧ (s.start + s.stop) / 2 ≤ s.stop := by
  constructor <;> linarith

/-- Chronologically ordered, well-formed silences: the first interval's end
is no later than the start of any later interval. -/
lemma chain_silence_propagate (s : SilenceSegment) (rest : List SilenceSegment)
    (hc : List.Chain' (fun a b => a.stop ≤ b.start) (s :: rest))
    (hwf : ∀ x ∈ s :: rest, x.start ≤ x.stop) :
    ∀ t ∈ rest, s.stop ≤ t.start := by
  induction rest generalizing s with
  | nil => intro t ht; cases ht
  | cons b rest ih =>
    intro t ht
    have hsb : s.stop ≤ b.start := (List.chain'_cons.mp hc).1
    rcases List.mem_cons.mp ht with ht | ht
    · rw [ht]; exact hsb
    · have hbt : b.stop ≤ t.start :=
        ih b (List.chain'_cons.mp hc).2
          (fun x hx => hwf x (List.mem_cons_of_mem s hx)) t ht
      have : b.start ≤ b.stop := hwf b (by simp)
      linarith

/-- Characterisation of the silence-walking loop of
`calculate_split_points` (with the trailing remainder append), for
chronologically ordered silences lying within `[0, totalDuration]` and a
cursor below every remaining midpoint: the output is empty only if the
cursor already reached `totalDuration`; every window is well-formed and
ends within `totalDuration`; windows chain contiguously; the first window
starts at the cursor; the last window ends at `totalDuration`. -/
lemma splitLoop_spec (minLen maxLen td : ℚ) :
    ∀ (sil : List SilenceSegment) (current : ℚ),
      current ≤ td →
      (∀ s ∈ sil, current ≤ (s.start + s.stop) / 2) →
      (∀ s ∈ sil, s.start ≤ s.stop ∧ s.stop ≤ td) →
      List.Chain' (fun a b => a.stop ≤ b.start) sil →
      (splitLoop minLen maxLen td sil current = [] → td ≤ current) ∧
      (∀ w ∈ splitLoop minLen maxLen td sil current,
        w.1 ≤ w.2 ∧ w.2 ≤ td) ∧
      List.Chain' (fun x y => x.2 = y.1)
        (splitLoop minLen maxLen td sil current) ∧
      (∀ w, (splitLoop minLen maxLen td sil current).head? = some w →
        w.1 = current) ∧
      (∀ w, (splitLoop minLen maxLen td sil current).getLast? = some w →
        w.2 = td) := by
  intro sil
  induction sil with
  | nil =>
    intro current hle _ _ _
    by_cases hlt : current < td
    · simp only [splitLoop, if_pos hlt]
      refine ⟨fun h => absurd h (by simp), ?_, by simp, ?_, ?_⟩
      · intro w hw
        rw [List.mem_singleton] at hw
        rw [hw]
        exact ⟨hle, le_refl td⟩
      · intro w hw
        simp only [List.head?_cons, Option.some.injEq] at hw
        rw [← hw]
      · intro w hw
        simp only [List.getLast?_singleton, Option.some.injEq] at hw
        rw [← hw]
    · simp only [splitLoop, if_neg hlt]
      exact ⟨fun _ => not_lt.mp hlt, by simp, by simp, by simp, by simp⟩
  | cons s rest ih =>
    intro current hle hmid hwf hchain
    have hwfs : s.start ≤ s.stop := (hwf s (by simp)).1
    have hstop : s.stop ≤ td := (hwf s (by simp)).2
    set sp := (s.start + s.stop) / 2 with hsp
    have hcursp : current ≤ sp := hmid s (by simp)
    have hsptd : sp ≤ td := le_trans (silence_mid_bounds s hwfs).2 hstop
    have hmid' : ∀ t ∈ rest, sp ≤ (t.start + t.stop) / 2 := by
      intro t ht
      have h1 : s.stop ≤ t.start := chain_silence_propagate s rest hchain
        (fun x hx => (hwf x hx).1) t ht
      have h2 : t.start ≤ (t.start + t.stop) / 2 :=
        (silence_mid_bounds t ((hwf t (List.mem_cons_of_mem s ht)).1)).1
      have h3 : sp ≤ s.stop := (silence_mid_bounds s hwfs).2
      linarith
    have hmidcur : ∀ t ∈ rest, current ≤ (t.start + t.stop) / 2 :=
      fun t ht => hmid t (List.mem_cons_of_mem s ht)
    have hwf' : ∀ t ∈ rest, t.start ≤ t.stop ∧ t.stop ≤ td :=
      fun t ht => hwf t (List.mem_cons_of_mem s ht)
    have hchain' : List.Chain' (fun a b => a.stop ≤ b.start) rest :=
      (List.chain'_cons'.mp hchain).2
    obtain ⟨ihnil, ihmem, ihchain, ihhead, ihlast⟩ :=
      ih sp hsptd hmid' hwf' hchain'
    obtain ⟨ihnil₀, ihmem₀, ihchain₀, ihhead₀, ihlast₀⟩ :=
      ih current hle hmidcur hwf' hchain'
    by_cases hcommit : sp - current ≥ minLen ∨ sp - current ≥ maxLen
    · have hed : splitLoop minLen maxLen td (s :: rest) current =
          (current, sp) :: splitLoop minLen maxLen td rest sp := by
        rcases hcommit with hc | hc
        · simp only [splitLoop, hsp]
          rw [if_pos hc]
        · simp only [splitLoop, hsp]
          by_cases hc1 : sp - current ≥ minLen
          · rw [if_pos hc1]
          · rw [if_neg hc1, if_pos hc]
      rw [hed]
      refine ⟨by simp, ?_, ?_, ?_, ?_⟩
      · intro w hw
        rcases List.mem_cons.mp hw with hw | hw
        · rw [hw]; exact ⟨hcursp, hsptd⟩
        · exact ihmem w hw
      · refine List.chain'_cons'.mpr ⟨?_, ihchain⟩
        intro h hh
        exact (ihhead h hh).symm
      · intro w hw
        simp only [List.head?_cons, Option.some.injEq] at hw
        rw [← hw]
      · intro w hw
        rcases hcase : splitLoop minLen maxLen td rest sp with _ | ⟨b, tl⟩
        · rw [hcase] at hw
          simp only [List.getLast?_singleton, Option.some.injEq] at hw
          have : td ≤ sp := ihnil hcase
          rw [← hw]
          exact le_antisymm hsptd this
        · rw [hcase] at hw
          rw [List.getLast?_cons_cons] at hw
          exact ihlast w (hcase ▸ hw)
    · push_neg at hcommit
      have hed : splitLoop minLen maxLen td (s :: rest) current =
          splitLoop minLen maxLen td rest current := by
        simp only [splitLoop, hsp]
        rw [if_neg (not_le.mpr hcommit.1), if_neg (not_le.mpr hcommit.2)]
      rw [hed]
      exact ⟨ihnil₀, ihmem₀, ihchain₀, ihhead₀, ihlast₀⟩

/-- Under the planner contract `min_segment_length ≤ max_segment_length`,
the force-split `elif` branch of `calculate_split_points` is unreachable:
the silence-walking loop coincides with the spec's reference loop that
commits exactly when `split_point - current_start ≥ min_segment_length`. -/
lemma splitLoop_eq_spec (minLen maxLen td : ℚ) (h : minLen ≤ maxLen) :
    ∀ (sil : List SilenceSegment) (current : ℚ),
      splitLoop minLen maxLen td sil current =
        splitLoopSpec minLen td sil current := by
  intro sil
  induction sil with
  | nil => intro current; rfl
  | cons s rest ih =>
    intro current
    simp only [splitLoop, splitLoopSpec]
    by_cases hc : (s.start + s.stop) / 2 - current ≥ minLen
    · rw [if_pos hc, if_pos hc, ih]
    · have hc2 : ¬ (s.start + s.stop) / 2 - current ≥ maxLen := by
        intro hmax
        exact hc (le_trans h hmax)
      rw [if_neg hc, if_neg hc, if_neg hc2, ih]

/-- Every tiling window except possibly the last has length exactly
`maxLen` (only the final window is truncated by `totalDuration`). -/
lemma splitByTime_dropLast (maxLen td : ℚ) :
    ∀ (fuel : ℕ) (current : ℚ),
      ∀ w ∈ (splitByTime maxLen td fuel current).dropLast,
        w.2 - w.1 = maxLen := by
  intro fuel
  induction fuel with
  | zero => intro current w hw; simp [splitByTime] at hw
  | succ fuel ih =>
    intro current w hw
    by_cases hlt : current < td
    · rw [show splitByTime maxLen td (fuel + 1) current =
          (current, min (current + maxLen) td) ::
            splitByTime maxLen td fuel (min (current + maxLen) td) by
          simp [splitByTime, if_pos hlt]] at hw
      rcases hcase : splitByTime maxLen td fuel (min (current + maxLen) td)
        with _ | ⟨b, tl⟩
      · rw [hcase] at hw
        simp at hw
      · rw [hcase, List.dropLast_cons₂] at hw
        rcases List.mem_cons.mp hw with hw | hw
        · have hlt' : min (current + maxLen) td < td :=
            splitByTime_ne_nil_imp maxLen td fuel _ (by rw [hcase]; simp)
          have hmin : min (current + maxLen) td = current + maxLen := by
            rcases le_total (current + maxLen) td with hc | hc
            · exact min_eq_left hc
            · exact absurd hlt' (by rw [min_eq_right hc]; exact lt_irrefl td)
          rw [hw]
          simp only [hmin]
          ring
        · exact ih _ w (by rw [hcase]; exact hw)
    · rw [show splitByTime maxLen td (fuel + 1) current = [] by
        simp [splitByTime, if_neg hlt]] at hw
      simp at hw

/-- Under `min_segment_length ≤ max_segment_length`, every window committed
by the silence-walking loop except possibly the last has length at least
`minLen` (the two commit branches both require it). -/
lemma splitLoop_dropLast (minLen maxLen td : ℚ) (h : minLen ≤ maxLen) :
    ∀ (sil : List SilenceSegment) (current : ℚ),
      ∀ w ∈ (splitLoop minLen maxLen td sil current).dropLast,
        minLen ≤ w.2 - w.1 := by
  intro sil
  induction sil with
  | nil =>
    intro current w hw
    by_cases hlt : current < td
    · simp [splitLoop, if_pos hlt] at hw
    · simp [splitLoop, if_neg hlt] at hw
  | cons s rest ih =>
    intro current w hw
    set sp := (s.start + s.stop) / 2 with hsp
    by_cases hc1 : sp - current ≥ minLen
    · rw [show splitLoop minLen maxLen td (s :: rest) current =
          (current, sp) :: splitLoop minLen maxLen td rest sp by
          simp only [splitLoop, hsp]; rw [if_pos hc1]] at hw
      rcases hcase : splitLoop minLen maxLen td rest sp with _ | ⟨b, tl⟩
      · rw [hcase] at hw; simp at hw
      · rw [hcase, List.dropLast_cons₂] at hw
        rcases List.mem_cons.mp hw with hw | hw
        · rw [hw]; simpa using hc1
        · exact ih sp w (by rw [hcase]; exact hw)
    · by_cases hc2 : sp - current ≥ maxLen
      · rw [show splitLoop minLen maxLen td (s :: rest) current =
            (current, sp) :: splitLoop minLen maxLen td rest sp by
            simp only [splitLoop, hsp]; rw [if_neg hc1, if_pos hc2]] at hw
        rcases hcase : splitLoop minLen maxLen td rest sp with _ | ⟨b, tl⟩
        · rw [hcase] at hw; simp at hw
        · rw [hcase, List.dropLast_cons₂] at hw
          rcases List.mem_cons.mp hw with hw | hw
          · rw [hw]
            have : maxLen ≤ sp - current := hc2
            simp only
            linarith
          · exact ih sp w (by rw [hcase]; exact hw)
      · rw [show splitLoop minLen maxLen td (s :: rest) current =
            splitLoop minLen maxLen td rest current by
            simp only [splitLoop, hsp]; rw [if_neg hc1, if_neg hc2]] at hw
        exact ih current w hw

/-! ### Claims about the segmentation planner -/

/-- **C1**: for every chronologically ordered silence list lying within
`[0, total_duration]`, every `total_duration > 0` and `min_len ≤ max_len`
(with enough fuel when the silence list is empty, since the Python `while`
loop diverges for `max_len ≤ 0`), the planner's window list is nonempty,
starts at 0, ends exactly at `total_duration`, is contiguous and gapless
(each window's end equals the next window's start), and no two windows
overlap. -/
theorem C1_planner_coverage (fuel : ℕ) (sil : List SilenceSegment)
    (td minLen maxLen : ℚ)
    (htd : 0 < td) (_hmm : minLen ≤ maxLen)
    (hbounds : ∀ s ∈ sil, 0 ≤ s.start ∧ s.start ≤ s.stop ∧ s.stop ≤ td)
    (hord : List.Chain' (fun a b => a.stop ≤ b.start) sil)
    (hfuel : sil = [] → td ≤ fuel * maxLen) :
    calculateSplitPoints fuel sil td minLen maxLen ≠ [] ∧
    (∀ w, (calculateSplitPoints fuel sil td minLen maxLen).head? = some w →
      w.1 = 0) ∧
    (∀ w, (calculateSplitPoints fuel sil td minLen maxLen).getLast? = some w →
      w.2 = td) ∧
    List.Chain' (fun x y => x.2 = y.1)
      (calculateSplitPoints fuel sil td minLen maxLen) ∧
    List.Pairwise (fun x y => x.2 ≤ y.1)
      (calculateSplitPoints fuel sil td minLen maxLen) := by
  cases sil with
  | nil =>
    have hfuel' : td ≤ fuel * maxLen := hfuel rfl
    have hmax : 0 < maxLen := by
      by_contra hmax
      push_neg at hmax
      have h1 : (fuel : ℚ) * maxLen ≤ 0 :=
        mul_nonpos_of_nonneg_of_nonpos (Nat.cast_nonneg fuel) hmax
      linarith
    have hcalc : calculateSplitPoints fuel [] td minLen maxLen =
        splitByTime maxLen td fuel 0 := by
      simp [calculateSplitPoints]
    obtain ⟨hnil, hmem, hchain, hhead, hlast⟩ :=
      splitByTime_spec maxLen td hmax fuel 0 (by linarith)
    rw [hcalc]
    refine ⟨fun h => (hnil.mp h) htd, hhead, hlast, hchain, ?_⟩
    exact chain_contig_pairwise _ hchain (fun w hw => (hmem w hw).1)
  | cons s rest =>
    have hcalc : calculateSplitPoints fuel (s :: rest) td minLen maxLen =
        splitLoop minLen maxLen td (s :: rest) 0 := by
      simp [calculateSplitPoints]
    obtain ⟨hnil, hmem, hchain, hhead, hlast⟩ :=
      splitLoop_spec minLen maxLen td (s :: rest) 0 htd.le
        (fun x hx => le_trans (hbounds x hx).1
          (silence_mid_bounds x (hbounds x hx).2.1).1)
        (fun x hx => ⟨(hbounds x hx).2.1, (hbounds x hx).2.2⟩) hord
    rw [hcalc]
    refine ⟨fun h => absurd (hnil h) (not_le.mpr htd), hhead, hlast, hchain, ?_⟩
    exact chain_contig_pairwise _ hchain (fun w hw => (hmem w hw).1)

/-- Witness for C1 at the spec's worked scenario. -/
theorem C1_planner_coverage_witness :
    (0:ℚ) < 180 ∧ (30:ℚ) ≤ 120 ∧
    calculateSplitPoints 0 [⟨40, 42, 2⟩, ⟨100, 101, 1⟩] 180 30 120 ≠ [] :=
  ⟨by norm_num, by norm_num,
    (C1_planner_coverage 0 [⟨40, 42, 2⟩, ⟨100, 101, 1⟩] 180 30 120
      (by norm_num) (by norm_num)
      (by decide)
      (by simp only [List.chain'_cons, List.chain'_singleton, and_true]
          norm_num)
      (by intro h; cases h)).1⟩

/-- **C2**: with a non-empty silence list the planner walks silences in
order from `current_start = 0`, committing `[current_start, midpoint)` and
advancing exactly when `midpoint - current_start ≥ min_len` (the force
branch being unreachable under `min_len ≤ max_len`), commits the final
remainder `[current_start, total_duration)` exactly when
`current_start < total_duration`, and on the spec's scenario
(`total_duration=180`, silences `[(40,42),(100,101)]`, `min_len=30`,
`max_len=120`) produces `[0,41), [41,100.5), [100.5,180)`. -/
theorem C2_commit_rule (minLen maxLen td : ℚ) (sil : List SilenceSegment)
    (current : ℚ) (h : minLen ≤ maxLen) :
    splitLoop minLen maxLen td sil current =
      splitLoopSpec minLen td sil current ∧
    (∀ c : ℚ, splitLoop minLen maxLen td [] c =
      if c < td then [(c, td)] else []) ∧
    calculateSplitPoints 0 [⟨40, 42, 2⟩, ⟨100, 101, 1⟩] 180 30 120 =
      [(0, 41), (41, 201/2), (201/2, 180)] :=
  ⟨splitLoop_eq_spec minLen maxLen td h sil current,
   fun _ => rfl,
   by norm_num [calculateSplitPoints, splitLoop]⟩

/-- Witness for C2 at the spec's worked scenario. -/
theorem C2_commit_rule_witness :
    (30:ℚ) ≤ 120 ∧
    splitLoop 30 120 180 [⟨40, 42, 2⟩, ⟨100, 101, 1⟩] 0 =
      splitLoopSpec 30 180 [⟨40, 42, 2⟩, ⟨100, 101, 1⟩] 0 :=
  ⟨by norm_num,
    (C2_commit_rule 30 120 180 [⟨40, 42, 2⟩, ⟨100, 101, 1⟩] 0
      (by norm_num)).1⟩

/-- **C5**: with no silences and `total_duration > 0` (and enough fuel for
the Python `while` loop), the planner tiles `[0, total_duration)` into
contiguous windows, each ending at `min (start + max_len) total_duration`
(so all full-length except the final truncated one), the last ending
exactly at `total_duration`; for `total_duration = 250`, `max_len = 120`
the output is exactly `[0,120), [120,240), [240,250)`. -/
theorem C5_empty_silences_tiling (fuel : ℕ) (td minLen maxLen : ℚ)
    (htd : 0 < td) (hfuel : td ≤ fuel * maxLen) :
    (calculateSplitPoints fuel [] td minLen maxLen ≠ [] ∧
     (∀ w, (calculateSplitPoints fuel [] td minLen maxLen).head? = some w →
       w.1 = 0) ∧
     (∀ w, (calculateSplitPoints fuel [] td minLen maxLen).getLast? = some w →
       w.2 = td) ∧
     List.Chain' (fun x y => x.2 = y.1)
       (calculateSplitPoints fuel [] td minLen maxLen) ∧
     (∀ w ∈ calculateSplitPoints fuel [] td minLen maxLen,
       w.2 = min (w.1 + maxLen) td)) ∧
    calculateSplitPoints 3 [] 250 30 120 =
      [(0, 120), (120, 240), (240, 250)] := by
  have hmax : 0 < maxLen := by
    by_contra hmax
    push_neg at hmax
    have h1 : (fuel : ℚ) * maxLen ≤ 0 :=
      mul_nonpos_of_nonneg_of_nonpos (Nat.cast_nonneg fuel) hmax
    linarith
  have hcalc : calculateSplitPoints fuel [] td minLen maxLen =
      splitByTime maxLen td fuel 0 := by
    simp [calculateSplitPoints]
  obtain ⟨hnil, hmem, hchain, hhead, hlast⟩ :=
    splitByTime_spec maxLen td hmax fuel 0 (by linarith)
  refine ⟨?_, by norm_num [calculateSplitPoints, splitByTime, min_def]⟩
  rw [hcalc]
  exact ⟨fun h => (hnil.mp h) htd, hhead, hlast, hchain,
    fun w hw => (hmem w hw).2⟩

/-- Witness for C5 at the spec's worked scenario. -/
theorem C5_empty_silences_tiling_witness :
    (0:ℚ) < 250 ∧ (250:ℚ) ≤ 3 * 120 ∧
    calculateSplitPoints 3 [] 250 30 120 =
      [(0, 120), (120, 240), (240, 250)] :=
  ⟨by norm_num, by norm_num,
    (C5_empty_silences_tiling 3 250 30 120 (by norm_num) (by norm_num)).2⟩

/-- **C6**: under `min_len ≤ max_len`, every planner window except the
terminal remainder window has length at least `min_len` (in the tiling
branch, non-final windows have length exactly `max_len ≥ min_len`; in the
silence branch, both commit conditions imply length `≥ min_len`, the
force-split branch being unreachable). -/
theorem C6_min_length_respected (fuel : ℕ) (sil : List SilenceSegment)
    (td minLen maxLen : ℚ) (h : minLen ≤ maxLen) :
    (∀ w ∈ (calculateSplitPoints fuel sil td minLen maxLen).dropLast,
      minLen ≤ w.2 - w.1) ∧
    (∀ (sil' : List SilenceSegment) (cur : ℚ),
      splitLoop minLen maxLen td sil' cur =
        splitLoopSpec minLen td sil' cur) := by
  refine ⟨?_, fun sil' cur => splitLoop_eq_spec minLen maxLen td h sil' cur⟩
  cases sil with
  | nil =>
    intro w hw
    have hcalc : calculateSplitPoints fuel [] td minLen maxLen =
        splitByTime maxLen td fuel 0 := by
      simp [calculateSplitPoints]
    rw [hcalc] at hw
    have := splitByTime_dropLast maxLen td fuel 0 w hw
    linarith
  | cons s rest =>
    intro w hw
    have hcalc : calculateSplitPoints fuel (s :: rest) td minLen maxLen =
        splitLoop minLen maxLen td (s :: rest) 0 := by
      simp [calculateSplitPoints]
    rw [hcalc] at hw
    exact splitLoop_dropLast minLen maxLen td h (s :: rest) 0 w hw

/-- Witness for C6 at the spec's worked scenario: the first (non-terminal)
window `[0,41)` has length `≥ 30`. -/
theorem C6_min_length_respected_witness :
    (30:ℚ) ≤ 120 ∧ (30:ℚ) ≤ (41:ℚ) - 0 :=
  ⟨by norm_num,
    (C6_min_length_respected 0 [⟨40, 42, 2⟩, ⟨100, 101, 1⟩] 180 30 120
      (by norm_num)).1 ((0:ℚ), (41:ℚ))
      (by norm_num [calculateSplitPoints, splitLoop])⟩

/-! ### The per-window filter/extract loop of `process_audio_file` -/

/-- Decimal digits of a natural number, most significant first (the digit
sequence Python's `%d` formatting prints). -/
def natDigits (n : ℕ) : List Char :=
  if _h : n < 10 then [Nat.digitChar n]
  else natDigits (n / 10) ++ [Nat.digitChar (n % 10)]
  termination_by n
  decreasing_by exact Nat.div_lt_self (by omega) (by omega)

/-- Python `f"{n:03d}"`: the decimal representation of `n` left-padded
with `'0'` to at least three characters. -/
def pad3 (n : ℕ) : String :=
  ⟨List.replicate (3 - (natDigits n).length) '0' ++ natDigits n⟩

/-- The `for start_time, end_time in split_points` loop of
`process_audio_file`: measure the window's silence ratio (the external
ffmpeg measurement is the oracle `ratio`); skip the window when
`silence_ratio > silence_ratio_threshold`; otherwise attempt extraction
(oracle `extractOk` for `split_audio_segment`); on success append an
`AudioSegment` named `segment_{segment_index:03d}.wav` and increment
`segment_index` (initially 1); on failure neither append nor increment. -/
def processSegments (ratio : ℚ × ℚ → ℚ) (thr : ℚ)
    (extractOk : ℚ × ℚ → Bool) :
    List (ℚ × ℚ) → ℕ → List AudioSegment
  | [], _ => []
  | (s, e) :: rest, idx =>
    if ratio (s, e) > thr then
      processSegments ratio thr extractOk rest idx
    else if extractOk (s, e) then
      { filename := "segment_" ++ pad3 idx ++ ".wav",
        start_time := s, end_time := e, duration := e - s,
        segment_index := idx } ::
        processSegments ratio thr extractOk rest (idx + 1)
    else
      processSegments ratio thr extractOk rest idx

/-- A window survives iff its measured silence ratio is at most the
threshold (strictly-greater ratios are skipped) and its extraction call
succeeds. -/
def survives (ratio : ℚ × ℚ → ℚ) (thr : ℚ) (extractOk : ℚ × ℚ → Bool)
    (w : ℚ × ℚ) : Bool :=
  decide (ratio w ≤ thr) && extractOk w

/-- Characterisation of the filter/extract loop: indices are consecutive
from the starting index, and the surviving records are exactly the
windows passing the ratio filter whose extraction succeeded, in order. -/
lemma processSegments_spec (ratio : ℚ × ℚ → ℚ) (thr : ℚ)
    (extractOk : ℚ × ℚ → Bool) :
    ∀ (pts : List (ℚ × ℚ)) (idx : ℕ),
      List.map (fun r => r.segment_index)
          (processSegments ratio thr extractOk pts idx) =
        List.range' idx (processSegments ratio thr extractOk pts idx).length ∧
      List.map (fun r => (r.start_time, r.end_time))
          (processSegments ratio thr extractOk pts idx) =
        pts.filter (survives ratio thr extractOk) := by
  intro pts
  induction pts with
  | nil => intro idx; simp [processSegments]
  | cons w rest ih =>
    intro idx
    obtain ⟨s, e⟩ := w
    by_cases hgt : ratio (s, e) > thr
    · have hsur : survives ratio thr extractOk (s, e) = false := by
        simp [survives, decide_eq_false (not_le.mpr hgt)]
      simp only [processSegments, if_pos hgt, List.filter_cons, hsur,
        Bool.false_eq_true, if_false]
      exact ih idx
    · by_cases hok : extractOk (s, e) = true
      · have hsur : survives ratio thr extractOk (s, e) = true := by
          simp [survives, hok, decide_eq_true (not_lt.mp hgt)]
        obtain ⟨ih1, ih2⟩ := ih (idx + 1)
        simp only [processSegments, if_neg hgt, hok, if_true,
          List.filter_cons, hsur, if_true, List.map_cons, List.length_cons]
        constructor
        · rw [List.range'_succ, ih1]
        · rw [ih2]
      · have hsur : survives ratio thr extractOk (s, e) = false := by
          simp [survives, hok]
        simp only [processSegments, if_neg hgt, hok, Bool.false_eq_true,
          if_false, List.filter_cons, hsur]
        exact ih idx

/-- **C4**: the `segment_index` values produced by `process_audio_file`
are exactly the dense sequence `1..k` where `k` is the number of windows
that pass the silence-ratio filter and extract successfully; records
appear in chronological window order (they are exactly the surviving
windows, in order), so a failed extraction leaves no index gap and does
not disturb later windows. -/
theorem C4_segment_index_density (ratio : ℚ × ℚ → ℚ) (thr : ℚ)
    (extractOk : ℚ × ℚ → Bool) (pts : List (ℚ × ℚ)) :
    List.map (fun r => r.segment_index)
        (processSegments ratio thr extractOk pts 1) =
      List.range' 1 (processSegments ratio thr extractOk pts 1).length ∧
    List.map (fun r => (r.start_time, r.end_time))
        (processSegments ratio thr extractOk pts 1) =
      pts.filter (survives ratio thr extractOk) ∧
    (processSegments ratio thr extractOk pts 1).length =
      (pts.filter (survives ratio thr extractOk)).length := by
  obtain ⟨h1, h2⟩ := processSegments_spec ratio thr extractOk pts 1
  refine ⟨h1, h2, ?_⟩
  calc (processSegments ratio thr extractOk pts 1).length
      = (List.map (fun r => (r.start_time, r.end_time))
          (processSegments ratio thr extractOk pts 1)).length := by
        rw [List.length_map]
    _ = (pts.filter (survives ratio thr extractOk)).length := by rw [h2]

/-- **C7**: a candidate window is dropped by the silence-ratio filter iff
its measured ratio strictly exceeds the threshold: a window with ratio
above the threshold never yields a record, a window at or below the
threshold whose extraction succeeds always yields a record, and in the
spec's scenario (threshold `0.9`, measured ratio `0.95`) the single
window is dropped and receives no `segment_index`. -/
theorem C7_silence_ratio_filter (ratio : ℚ × ℚ → ℚ) (thr : ℚ)
    (extractOk : ℚ × ℚ → Bool) (pts : List (ℚ × ℚ)) :
    (∀ w ∈ pts, thr < ratio w →
      ∀ r ∈ processSegments ratio thr extractOk pts 1,
        (r.start_time, r.end_time) ≠ w) ∧
    (∀ w ∈ pts, ratio w ≤ thr → extractOk w = true →
      ∃ r ∈ processSegments ratio thr extractOk pts 1,
        (r.start_time, r.end_time) = w) ∧
    processSegments (fun _ => 19/20) (9/10) (fun _ => true) [(0, 10)] 1 =
      [] := by
  obtain ⟨_, h2⟩ := processSegments_spec ratio thr extractOk pts 1
  refine ⟨?_, ?_, ?_⟩
  · intro w _ hgt r hr heq
    have hmem : w ∈ pts.filter (survives ratio thr extractOk) := by
      rw [← h2]
      exact heq ▸ List.mem_map_of_mem _ hr
    have := (List.mem_filter.mp hmem).2
    simp only [survives, Bool.and_eq_true, decide_eq_true_eq] at this
    exact absurd this.1 (not_le.mpr hgt)
  · intro w hw hle hok
    have hmem : w ∈ pts.filter (survives ratio thr extractOk) := by
      refine List.mem_filter.mpr ⟨hw, ?_⟩
      simp [survives, hle, hok]
    rw [← h2] at hmem
    obtain ⟨r, hr, hrw⟩ := List.mem_map.mp hmem
    exact ⟨r, hr, hrw⟩
  · norm_num [processSegments]

/-- Witness for C7: with windows `[(0,10), (20,30)]`, ratio measured as
the window's end time and threshold 20, the second window is dropped, so
the surviving record's window differs from it. -/
theorem C7_silence_ratio_filter_witness :
    ((20:ℚ), (30:ℚ)) ∈ [((0:ℚ), (10:ℚ)), ((20:ℚ), (30:ℚ))] ∧
    (20:ℚ) < 30 ∧
    ((0:ℚ), (10:ℚ)) ≠ ((20:ℚ), (30:ℚ)) := by
  refine ⟨by simp, by norm_num, ?_⟩
  exact (C7_silence_ratio_filter (fun w => w.2) 20 (fun _ => true)
      [(0, 10), (20, 30)]).1 (20, 30) (by simp) (by norm_num)
    { filename := "segment_" ++ pad3 1 ++ ".wav",
      start_time := 0, end_time := 10, duration := 10 - 0,
      segment_index := 1 }
    (by norm_num [processSegments])

/-! ### Lexicographic filename ordering (fallback reassembly, C9) -/

/-- Python's string `<=`: lexicographic comparison of code-point
sequences (`sorted` on same-directory `Path`s compares their final
component strings this way). -/
def lexLe : List Char → List Char → Bool
  | [], _ => true
  | _ :: _, [] => false
  | a :: as, b :: bs =>
    if a < b then true
    else if b < a then false
    else lexLe as bs

/-- Python string `<=` on Lean strings. -/
def pyStrLe (a b : String) : Bool :=
  lexLe a.data b.data

/-- The transcript filename of segment `i` under the extractor's naming
convention: the stem of `segment_{i:03d}.wav` plus `.txt`. -/
def segTxtName (i : ℕ) : String :=
  "segment_" ++ pad3 i ++ ".txt"

lemma lexLe_refl : ∀ l : List Char, lexLe l l = true := by
  intro l
  induction l with
  | nil => rfl
  | cons a as ih => simp [lexLe, lt_irrefl, ih]

lemma lexLe_total : ∀ a b : List Char, lexLe a b || lexLe b a := by
  intro a
  induction a with
  | nil => intro b; simp [lexLe]
  | cons x as ih =>
    intro b
    cases b with
    | nil => simp [lexLe]
    | cons y bs =>
      rcases lt_trichotomy x y with h | h | h
      · simp [lexLe, h, not_lt.mpr h.le]
      · subst h
        simp only [lexLe, lt_irrefl, if_false]
        exact ih bs
      · simp [lexLe, h, not_lt.mpr h.le]

lemma lexLe_trans : ∀ a b c : List Char,
    lexLe a b = true → lexLe b c = true → lexLe a c = true := by
  intro a
  induction a with
  | nil => intro b c _ _; rfl
  | cons x as ih =>
    intro b c hab hbc
    cases b with
    | nil => simp [lexLe] at hab
    | cons y bs =>
      cases c with
      | nil => simp [lexLe] at hbc
      | cons z cs =>
        simp only [lexLe] at hab hbc ⊢
        rcases lt_trichotomy x y with hxy | hxy | hxy
        · rcases lt_trichotomy y z with hyz | hyz | hyz
          · simp [hxy.trans hyz]
          · subst hyz; simp [hxy]
          · rcases lt_trichotomy x z with hxz | hxz | hxz
            · simp [hxz]
            · subst hxz
              rw [if_neg (not_lt.mpr hxy.le), if_pos hxy] at hbc
              exact absurd hbc Bool.false_ne_true
            · exfalso
              rw [if_neg (not_lt.mpr hyz.le), if_pos hyz] at hbc
              exact Bool.false_ne_true hbc
        · subst hxy
          rw [if_neg (lt_irrefl x), if_neg (lt_irrefl x)] at hab
          rcases lt_trichotomy x z with hxz | hxz | hxz
          · simp [hxz]
          · subst hxz
            rw [if_neg (lt_irrefl x), if_neg (lt_irrefl x)] at hbc
            rw [if_neg (lt_irrefl x), if_neg (lt_irrefl x)]
            exact ih bs cs hab hbc
          · rw [if_neg (not_lt.mpr hxz.le), if_pos hxz] at hbc
            exact absurd hbc Bool.false_ne_true
        · rw [if_neg (not_lt.mpr hxy.le), if_pos hxy] at hab
          exact absurd hab Bool.false_ne_true

lemma lexLe_antisymm : ∀ a b : List Char,
    lexLe a b = true → lexLe b a = true → a = b := by
  intro a
  induction a with
  | nil =>
    intro b _ hba
    cases b with
    | nil => rfl
    | cons y bs => simp [lexLe] at hba
  | cons x as ih =>
    intro b hab hba
    cases b with
    | nil => simp [lexLe] at hab
    | cons y bs =>
      simp only [lexLe] at hab hba
      rcases lt_trichotomy x y with hxy | hxy | hxy
      · rw [if_neg (not_lt.mpr hxy.le), if_pos hxy] at hba
        exact absurd hba Bool.false_ne_true
      · subst hxy
        rw [if_neg (lt_irrefl x), if_neg (lt_irrefl x)] at hab hba
        rw [ih bs hab hba]
      · rw [if_neg (not_lt.mpr hxy.le), if_pos hxy] at hab
        exact absurd hab Bool.false_ne_true

lemma lexLe_cons_same (c : Char) (as bs : List Char) :
    lexLe (c :: as) (c :: bs) = lexLe as bs := by
  simp [lexLe, lt_irrefl]

/-- For `n ≤ 999`, `f"{n:03d}"` is the three zero-padded decimal digits. -/
lemma pad3_eq (n : ℕ) (h : n ≤ 999) :
    (pad3 n).data = [Nat.digitChar (n / 100),
      Nat.digitChar (n / 10 % 10), Nat.digitChar (n % 10)] := by
  rcases Nat.lt_or_ge n 10 with h1 | h1
  · have hd : natDigits n = [Nat.digitChar n] := by
      rw [natDigits]; simp [h1]
    have e1 : n / 100 = 0 := Nat.div_eq_of_lt (by omega)
    have e2 : n / 10 % 10 = 0 := by omega
    have e3 : n % 10 = n := Nat.mod_eq_of_lt h1
    simp [pad3, hd, e1, e2, e3, List.replicate]
    rfl
  · rcases Nat.lt_or_ge n 100 with h2 | h2
    · have hd10 : n / 10 < 10 := by omega
      have hd : natDigits n =
          [Nat.digitChar (n / 10), Nat.digitChar (n % 10)] := by
        rw [natDigits]
        simp only [not_lt.mpr h1, dif_neg (not_lt.mpr h1)]
        rw [natDigits]
        simp [hd10]
      have e1 : n / 100 = 0 := Nat.div_eq_of_lt (by omega)
      have e2 : n / 10 % 10 = n / 10 := Nat.mod_eq_of_lt hd10
      simp [pad3, hd, e1, e2, List.replicate]
      rfl
    · have hge10 : ¬ n < 10 := by omega
      have hge10' : ¬ n / 10 < 10 := by omega
      have hd100 : n / 10 / 10 < 10 := by omega
      have hd : natDigits n =
          [Nat.digitChar (n / 10 / 10), Nat.digitChar (n / 10 % 10),
            Nat.digitChar (n % 10)] := by
        rw [natDigits]
        simp only [dif_neg hge10]
        rw [natDigits]
        simp only [dif_neg hge10']
        rw [natDigits]
        simp [hd100]
      have e1 : n / 10 / 10 = n / 100 := by omega
      simp [pad3, hd, e1, List.replicate]

/-- The character list of a fallback transcript filename. -/
lemma segTxtName_data (i : ℕ) (h : i ≤ 999) :
    (segTxtName i).data =
      's' :: 'e' :: 'g' :: 'm' :: 'e' :: 'n' :: 't' :: '_' ::
      Nat.digitChar (i / 100) :: Nat.digitChar (i / 10 % 10) ::
      Nat.digitChar (i % 10) :: ['.', 't', 'x', 't'] := by
  show (("segment_" ++ pad3 i) ++ ".txt").data = _
  rw [String.data_append, String.data_append, pad3_eq i h]
  rfl

lemma digitChar_lt_iff : ∀ a < 10, ∀ b < 10,
    (Nat.digitChar a < Nat.digitChar b ↔ a < b) := by decide

lemma digitChar_eq_iff : ∀ a < 10, ∀ b < 10,
    (Nat.digitChar a = Nat.digitChar b ↔ a = b) := by decide

/-- Comparing two fallback transcript filenames lexicographically is
exactly comparing their segment indices numerically (within the 3-digit
padding range). -/
lemma pyStrLe_segTxtName (i j : ℕ) (hi : i ≤ 999) (hj : j ≤ 999) :
    pyStrLe (segTxtName i) (segTxtName j) = decide (i ≤ j) := by
  have hi1 : i / 100 < 10 := by omega
  have hi2 : i / 10 % 10 < 10 := by omega
  have hi3 : i % 10 < 10 := by omega
  have hj1 : j / 100 < 10 := by omega
  have hj2 : j / 10 % 10 < 10 := by omega
  have hj3 : j % 10 < 10 := by omega
  rw [pyStrLe, segTxtName_data i hi, segTxtName_data j hj]
  rw [lexLe_cons_same, lexLe_cons_same, lexLe_cons_same, lexLe_cons_same,
    lexLe_cons_same, lexLe_cons_same, lexLe_cons_same, lexLe_cons_same]
  rcases lt_trichotomy (i / 100) (j / 100) with h1 | h1 | h1
  · have hc : Nat.digitChar (i / 100) < Nat.digitChar (j / 100) :=
      (digitChar_lt_iff _ hi1 _ hj1).mpr h1
    rw [lexLe, if_pos hc]
    exact (decide_eq_true (by omega)).symm
  · have hc : Nat.digitChar (i / 100) = Nat.digitChar (j / 100) := by
      rw [h1]
    rw [lexLe, hc, if_neg (lt_irrefl _), if_neg (lt_irrefl _)]
    rcases lt_trichotomy (i / 10 % 10) (j / 10 % 10) with h2 | h2 | h2
    · have hc2 : Nat.digitChar (i / 10 % 10) < Nat.digitChar (j / 10 % 10) :=
        (digitChar_lt_iff _ hi2 _ hj2).mpr h2
      rw [lexLe, if_pos hc2]
      exact (decide_eq_true (by omega)).symm
    · have hc2 : Nat.digitChar (i / 10 % 10) = Nat.digitChar (j / 10 % 10) := by
        rw [h2]
      rw [lexLe, hc2, if_neg (lt_irrefl _), if_neg (lt_irrefl _)]
      rcases lt_trichotomy (i % 10) (j % 10) with h3 | h3 | h3
      · have hc3 : Nat.digitChar (i % 10) < Nat.digitChar (j % 10) :=
          (digitChar_lt_iff _ hi3 _ hj3).mpr h3
        rw [lexLe, if_pos hc3]
        exact (decide_eq_true (by omega)).symm
      · have hc3 : Nat.digitChar (i % 10) = Nat.digitChar (j % 10) := by
          rw [h3]
        rw [lexLe, hc3, if_neg (lt_irrefl _), if_neg (lt_irrefl _)]
        rw [lexLe_refl]
        exact (decide_eq_true (by omega)).symm
      · have hc3 : Nat.digitChar (j % 10) < Nat.digitChar (i % 10) :=
          (digitChar_lt_iff _ hj3 _ hi3).mpr h3
        rw [lexLe, if_neg (not_lt.mpr hc3.le), if_pos hc3]
        exact (decide_eq_false (by omega)).symm
    · have hc2 : Nat.digitChar (j / 10 % 10) < Nat.digitChar (i / 10 % 10) :=
        (digitChar_lt_iff _ hj2 _ hi2).mpr h2
      rw [lexLe, if_neg (not_lt.mpr hc2.le), if_pos hc2]
      exact (decide_eq_false (by omega)).symm
  · have hc : Nat.digitChar (j / 100) < Nat.digitChar (i / 100) :=
      (digitChar_lt_iff _ hj1 _ hi1).mpr h1
    rw [lexLe, if_neg (not_lt.mpr hc.le), if_pos hc]
    exact (decide_eq_false (by omega)).symm

/-- **C9**: for filenames following the extractor's zero-padded ordinal
convention (3-digit pad, indices in `1..999`), lexicographic filename
order coincides with ascending `segment_index` order, and sorting the
filenames lexicographically (the fallback reassembly order) equals
mapping the naming convention over the indices sorted ascending (the
chronological order a ledger would give). -/
theorem C9_fallback_order_equivalence :
    (∀ i j : ℕ, 1 ≤ i → i ≤ 999 → 1 ≤ j → j ≤ 999 →
      (pyStrLe (segTxtName i) (segTxtName j) = true ↔ i ≤ j)) ∧
    (∀ l : List ℕ, (∀ i ∈ l, 1 ≤ i ∧ i ≤ 999) →
      (l.map segTxtName).mergeSort pyStrLe =
        (l.mergeSort (fun a b => decide (a ≤ b))).map segTxtName) := by
  constructor
  · intro i j _ hi _ hj
    rw [pyStrLe_segTxtName i j hi hj]
    simp
  · intro l hl
    haveI : IsAntisymm String (fun a b => pyStrLe a b = true) :=
      ⟨fun a b hab hba => String.ext (lexLe_antisymm a.data b.data hab hba)⟩
    have hperm : ((l.map segTxtName).mergeSort pyStrLe).Perm
        ((l.mergeSort (fun a b => decide (a ≤ b))).map segTxtName) := by
      refine ((l.map segTxtName).mergeSort_perm pyStrLe).trans ?_
      exact (List.Perm.map segTxtName
        (l.mergeSort_perm (fun a b => decide (a ≤ b))).symm)
    have hsort1 : List.Sorted (fun a b => pyStrLe a b = true)
        ((l.map segTxtName).mergeSort pyStrLe) :=
      List.sorted_mergeSort
        (fun a b c hab hbc => lexLe_trans a.data b.data c.data hab hbc)
        (fun a b => lexLe_total a.data b.data) (l.map segTxtName)
    have hsort2 : List.Sorted (fun a b => pyStrLe a b = true)
        ((l.mergeSort (fun a b => decide (a ≤ b))).map segTxtName) := by
      rw [List.Sorted, List.pairwise_map]
      have hnat : List.Sorted (· ≤ ·)
          (l.mergeSort (fun a b => decide (a ≤ b))) := by
        have := @List.sorted_mergeSort ℕ (fun a b : ℕ => decide (a ≤ b))
          (fun a b c hab hbc => by
            simp only [decide_eq_true_eq] at *
            omega)
          (fun a b => by
            simp only [Bool.or_eq_true, decide_eq_true_eq]
            omega) l
        refine this.imp ?_
        intro a b h
        simpa using h
      have hmem : ∀ i ∈ l.mergeSort (fun a b => decide (a ≤ b)),
          1 ≤ i ∧ i ≤ 999 := by
        intro i hi
        exact hl i ((l.mergeSort_perm (fun a b => decide (a ≤ b))).mem_iff.mp hi)
      refine List.Pairwise.imp_of_mem ?_ hnat
      intro a b ha hb hab
      rw [pyStrLe_segTxtName a b (hmem a ha).2 (hmem b hb).2]
      simpa using hab
    exact List.eq_of_perm_of_sorted hperm hsort1 hsort2

/-- Witness for C9: `segment_001.txt` sorts before `segment_002.txt`. -/
theorem C9_fallback_order_equivalence_witness :
    1 ≤ 999 ∧ pyStrLe (segTxtName 1) (segTxtName 2) = true :=
  ⟨by norm_num,
    (C9_fallback_order_equivalence.1 1 2 (by norm_num) (by norm_num)
      (by norm_num) (by norm_num)).mpr (by norm_num)⟩

/-! ### Python string primitives used by the parser and the merger -/

/-- Test that `needle` is a leading subsequence of `hay` (helper for substring
tests). -/
def hasPrefixL : List Char → List Char → Bool
  | [], _ => true
  | _ :: _, [] => false
  | a :: as, b :: bs => a == b && hasPrefixL as bs

/-- Python's `needle in hay` substring test on character lists. -/
def containsL (needle : List Char) : List Char → Bool
  | [] => hasPrefixL needle []
  | b :: bs => hasPrefixL needle (b :: bs) || containsL needle bs

/-- Python's `needle in hay` substring test on strings. -/
def strContains (needle hay : String) : Bool :=
  containsL needle.data hay.data

/-- Python's `str.strip()` (with `Char.isWhitespace` standing for
Python's whitespace class). -/
def pyStrip (s : String) : String :=
  ⟨((s.data.dropWhile Char.isWhitespace).reverse.dropWhile
      Char.isWhitespace).reverse⟩

/-- Helper for `str.split()`: accumulate the current word (reversed) and
split on whitespace runs, discarding empty words. -/
def wordsAux : List Char → List Char → List (List Char)
  | [], cur => if cur.isEmpty then [] else [cur.reverse]
  | c :: cs, cur =>
    if Char.isWhitespace c then
      if cur.isEmpty then wordsAux cs []
      else cur.reverse :: wordsAux cs []
    else wordsAux cs (c :: cur)

/-- Python's `str.split()` with no separator: whitespace-delimited words,
no empty entries. -/
def pyWords (s : String) : List String :=
  (wordsAux s.data []).map fun l => ⟨l⟩

/-- Helper for `str.split(sep)`: scan left to right, splitting at each
(non-overlapping) occurrence of `sep`.  The `fuel` argument (instantiated
with the input length, an upper bound on the number of scan steps) keeps
the recursion structural so that the function computes by reduction. -/
def splitOnAuxL (sep : List Char) : ℕ → List Char → List Char →
    List (List Char)
  | _, [], cur => [cur.reverse]
  | 0, l, cur => [cur.reverse ++ l]
  | fuel + 1, c :: cs, cur =>
    if hasPrefixL sep (c :: cs) then
      cur.reverse :: splitOnAuxL sep fuel ((c :: cs).drop sep.length) []
    else
      splitOnAuxL sep fuel cs (c :: cur)

/-- Python's `str.split(sep)` for a non-empty separator. -/
def pySplit (sep s : String) : List String :=
  (splitOnAuxL sep.data s.data.length s.data []).map fun l => ⟨l⟩

/-! ### The silence-event parser of `detect_silences` -/

/-- The line-scanning loop of `detect_silences` over the external tool's
diagnostic lines.  `parseFloat` is Python's `float()` (external builtin):
`none` models a `ValueError`.  State: `pending` is the `silence_start`
variable, `acc` the `silences` list.  A line containing `silencedetect`
and `silence_start` whose `split('silence_start:')` has a second part
takes the first whitespace token of that part and parses it —
`IndexError` (no token) or `ValueError` (unparseable) propagates as
`Except.error`, aborting the whole parse, exactly as the uncaught Python
exceptions would.  Lines without the markers are skipped. -/
def parseSilenceLines (parseFloat : String → Option ℚ) :
    List String → Option ℚ → List SilenceSegment →
    Except Unit (List SilenceSegment)
  | [], _, acc => .ok acc
  | line :: rest, pending, acc =>
    if strContains "silencedetect" line then
      if strContains "silence_start" line then
        match pySplit "silence_start:" line with
        | _ :: p1 :: _ =>
          match (pyWords (pyStrip p1)).head? with
          | none => .error ()
          | some tok =>
            match parseFloat tok with
            | none => .error ()
            | some v => parseSilenceLines parseFloat rest (some v) acc
        | _ => parseSilenceLines parseFloat rest pending acc
      else if strContains "silence_end" line then
        match pending with
        | some v0 =>
          match pySplit "silence_end:" line with
          | _ :: p1 :: _ =>
            match (pyWords (pyStrip ((pySplit "|" (pyStrip p1)).headD ""))).head? with
            | none => .error ()
            | some tok =>
              match parseFloat tok with
              | none => .error ()
              | some v1 =>
                parseSilenceLines parseFloat rest none
                  (acc ++ [⟨v0, v1, v1 - v0⟩])
          | _ => parseSilenceLines parseFloat rest pending acc
        | none => parseSilenceLines parseFloat rest pending acc
      else parseSilenceLines parseFloat rest pending acc
    else parseSilenceLines parseFloat rest pending acc

/-- Parse of a diagnostic stream by `detect_silences`, starting with no
pending silence and an empty result list. -/
def detectSilencesParse (parseFloat : String → Option ℚ)
    (lines : List String) : Except Unit (List SilenceSegment) :=
  parseSilenceLines parseFloat lines none []

example :
    detectSilencesParse
      (fun s => if s = "1.5" then some (3/2) else
        if s = "4.25" then some (17/4) else none)
      ["[silencedetect @ 0x55] silence_start: 1.5",
       "noise line",
       "[silencedetect @ 0x55] silence_end: 4.25 | silence_duration: 2.75"] =
      .ok [⟨3/2, 17/4, 17/4 - 3/2⟩] := by rfl

/-- **C8 counterexample**: the claim says `detect_silences` never fails
fatally on a line whose numeric payload cannot be parsed as a float; in
the code the `float()` call is not guarded, so on a marker-matched line
with payload `abc` (unparseable, modelled by the `float()` oracle
returning `none`) the uncaught `ValueError` aborts the parse. -/
theorem C8_parse_counterexample :
    detectSilencesParse (fun _ => none)
      ["[silencedetect @ 0x55] silence_start: abc"] = Except.error () := by
  rfl

/-- **C8 amended**: only lines that do not match the marker structure
(no `silencedetect` token, or neither complete marker) are skipped with
parsing continuing normally; a line matching `silencedetect` and
`silence_start` whose payload is absent or fails float-parsing raises an
uncaught exception, fatally aborting the whole parse. -/
theorem C8_parse_failure_amended (pf : String → Option ℚ)
    (line : String) (rest : List String) (pending : Option ℚ)
    (acc : List SilenceSegment) :
    (strContains "silencedetect" line = false →
      parseSilenceLines pf (line :: rest) pending acc =
        parseSilenceLines pf rest pending acc) ∧
    (strContains "silencedetect" line = true →
      strContains "silence_start" line = false →
      strContains "silence_end" line = false →
      parseSilenceLines pf (line :: rest) pending acc =
        parseSilenceLines pf rest pending acc) ∧
    (∀ p0 p1 ps,
      strContains "silencedetect" line = true →
      strContains "silence_start" line = true →
      pySplit "silence_start:" line = p0 :: p1 :: ps →
      ((pyWords (pyStrip p1)).head? = none ∨
        ∃ tok, (pyWords (pyStrip p1)).head? = some tok ∧ pf tok = none) →
      parseSilenceLines pf (line :: rest) pending acc = Except.error ()) := by
  refine ⟨?_, ?_, ?_⟩
  · intro h
    simp only [parseSilenceLines, h, Bool.false_eq_true, if_false]
  · intro h1 h2 h3
    simp only [parseSilenceLines, h1, if_true, h2, h3, Bool.false_eq_true,
      if_false]
  · intro p0 p1 ps h1 h2 hsplit hbad
    simp only [parseSilenceLines, h1, h2, if_true, hsplit]
    rcases hbad with hnone | ⟨tok, htok, hpf⟩
    · rw [hnone]
    · rw [htok]
      exact (by rw [hpf] :
        (match pf tok with
          | none => Except.error ()
          | some v => parseSilenceLines pf rest (some v) acc) =
          Except.error ())

/-- Witness for the amended C8: a diagnostic line without the markers is
skipped and parsing continues. -/
theorem C8_parse_failure_amended_witness :
    strContains "silencedetect" "frame=100 fps=25" = false ∧
    parseSilenceLines (fun _ => some 0) ["frame=100 fps=25"] none [] =
      parseSilenceLines (fun _ => some 0) [] none [] :=
  ⟨by rfl,
    (C8_parse_failure_amended (fun _ => some 0) "frame=100 fps=25" [] none
      []).1 (by rfl)⟩

/-! ### The transcript merger of `multilang_batch.py` -/

/-- A parsed JSON value (what `json.load` can return for the metadata
ledger). -/
inductive Json where
  | null
  | bool (b : Bool)
  | num (q : ℚ)
  | str (s : String)
  | arr (xs : List Json)
  | obj (kvs : List (String × Json))

/-- Python truthiness (`if metadata`): `None`, `False`, `0`, `""`, `[]`
and `{}` are falsy. -/
def truthy : Json → Bool
  | .null => false
  | .bool b => b
  | .num q => decide (q ≠ 0)
  | .str s => decide (s ≠ "")
  | .arr xs => !xs.isEmpty
  | .obj kvs => !kvs.isEmpty

/-- Python dict key lookup. -/
def jsonLookup (key : String) : List (String × Json) → Option Json
  | [] => none
  | (k, v) :: rest => if k == key then some v else jsonLookup key rest

/-- Python's `key in value`: key membership for a dict, element equality
for a list, substring test for a string; `none` models the `TypeError`
raised for other types. -/
def jsonContains (key : String) : Json → Option Bool
  | .obj kvs => some (kvs.any fun kv => kv.1 == key)
  | .arr xs => some (xs.any fun x =>
      match x with
      | .str s => s == key
      | _ => false)
  | .str s => some (strContains key s)
  | _ => none

/-- Python subscript `value[key]` with a string key: dict lookup;
`none` models the `TypeError`/`KeyError` raised otherwise. -/
def segField (j : Json) (key : String) : Option Json :=
  match j with
  | .obj kvs => jsonLookup key kvs
  | _ => none

/-- Model of `seg['filename']` followed by `Path(...)`: must be present and a
string, else the record access raises (modelled as `none`). -/
def segFilenameJ (seg : Json) : Option String :=
  match segField seg "filename" with
  | some (.str s) => some s
  | _ => none

/-- Model of `seg.get(key, 0)` followed by `f"{v:.1f}"` formatting: a missing key
defaults to `0`; a present non-numeric value makes the format call raise
(modelled as `none`). -/
def segTimeJ (seg : Json) (key : String) : Option ℚ :=
  match seg with
  | .obj kvs =>
    match jsonLookup key kvs with
    | some (.num q) => some q
    | none => some 0
    | some _ => none
  | _ => none

/-- Model of `pathlib.Path(name).stem` for a bare filename: the name up to its
last `.`, provided that dot is neither leading nor trailing. -/
def pathStem (name : String) : String :=
  match (name.data.enum.filter fun p => p.2 == '.').getLast? with
  | some (i, _) =>
    if 0 < i ∧ i < name.data.length - 1 then ⟨name.data.take i⟩ else name
  | none => name

/-- Outcome of looking for one transcript file: `missing` models
`txt_file.exists()` returning false, `unreadable` an exception while
reading, `content` a successful read. -/
inductive FileRes where
  | missing
  | unreadable
  | content (s : String)

/-- Result of `merge_transcripts`: which path was taken, the accumulated
`merged_parts`, the warnings printed, and the returned boolean (writing
the merged file is modelled as succeeding). -/
structure MergeOut where
  usedLedger : Bool
  parts : List String
  warns : List String
  success : Bool

/-- The block header `=== {filename} ({start:.1f}s - {end:.1f}s) ===`
(`fmt` is the `:.1f` float rendering, an external presentational
detail). -/
def ledgerHeader (fmt : ℚ → String) (fname : String) (st en : ℚ) : String :=
  "=== " ++ fname ++ " (" ++ fmt st ++ "s - " ++ fmt en ++ "s) ==="

/-- The `for seg in segments` loop of the ledger-driven path of
`merge_transcripts`: per record, look up the transcript named by the
record's filename stem plus `.txt`; a read yielding non-empty stripped
content appends the three parts header/content/blank; an empty file is
skipped silently; a read error or a missing file appends a warning and
skips; a malformed record (no string filename, non-numeric time) raises,
modelled as `Except.error`. -/
def ledgerLoop (fmt : ℚ → String) (fs : String → FileRes) :
    List Json → List String → List String →
    Except Unit (List String × List String)
  | [], parts, warns => .ok (parts, warns)
  | seg :: rest, parts, warns =>
    match segFilenameJ seg with
    | none => .error ()
    | some fname =>
      match fs (pathStem fname ++ ".txt") with
      | .content c =>
        if pyStrip c ≠ "" then
          match segTimeJ seg "start_time", segTimeJ seg "end_time" with
          | some st, some en =>
            ledgerLoop fmt fs rest
              (parts ++ [ledgerHeader fmt fname st en, pyStrip c, ""]) warns
          | _, _ => .error ()
        else
          ledgerLoop fmt fs rest parts warns
      | .unreadable =>
        ledgerLoop fmt fs rest parts
          (warns ++ ["Could not read " ++ pathStem fname ++ ".txt"])
      | .missing =>
        ledgerLoop fmt fs rest parts
          (warns ++ ["Transcript not found: " ++ pathStem fname ++ ".txt"])

/-- The fallback loop over `sorted(transcripts_dir.glob("segment_*.txt"))`:
globbed files exist, so `missing` is treated like a read failure
(warning, skip). -/
def fallbackLoop (fs : String → FileRes) :
    List String → List String → List String → List String × List String
  | [], parts, warns => (parts, warns)
  | name :: rest, parts, warns =>
    match fs name with
    | .content c =>
      if pyStrip c ≠ "" then
        fallbackLoop fs rest (parts ++ ["=== " ++ name ++ " ===", pyStrip c, ""])
          warns
      else fallbackLoop fs rest parts warns
    | _ => fallbackLoop fs rest parts (warns ++ ["Could not read " ++ name])

/-- The fallback path: sort the globbed transcript filenames
lexicographically and merge. -/
def fallbackRun (fs : String → FileRes) (listing : List String) : MergeOut :=
  let res := fallbackLoop fs (listing.mergeSort pyStrLe) [] []
  ⟨false, res.1, res.2, !res.1.isEmpty⟩

/-- Model of `merge_transcripts`: `metadata` is the result of `json.load` on the
ledger (`none` = file missing/unreadable/unparseable).  The ledger path
is taken iff `metadata and 'segments' in metadata`; the fallback path is
taken otherwise.  `fs` maps transcript filenames to their read outcome,
`listing` is the `glob("segment_*.txt")` result in arbitrary directory
order.  The function returns `True` iff any parts were collected;
uncaught exceptions (`TypeError` on odd JSON shapes, malformed records)
are `Except.error`. -/
def mergeTranscripts (fmt : ℚ → String) (metadata : Option Json)
    (fs : String → FileRes) (listing : List String) :
    Except Unit MergeOut :=
  match metadata with
  | some j =>
    if truthy j then
      match jsonContains "segments" j with
      | none => .error ()
      | some true =>
        match segField j "segments" with
        | some (.arr segs) =>
          match ledgerLoop fmt fs segs [] [] with
          | .error _ => .error ()
          | .ok res => .ok ⟨true, res.1, res.2, !res.1.isEmpty⟩
        | _ => .error ()
      | some false => .ok (fallbackRun fs listing)
    else .ok (fallbackRun fs listing)
  | none => .ok (fallbackRun fs listing)

/-- The parts one well-formed ledger record contributes: a three-part
labeled block when its transcript file reads as non-empty, nothing
otherwise. -/
def emitBlock (fmt : ℚ → String) (fs : String → FileRes) (seg : Json) :
    List String :=
  match segFilenameJ seg, segTimeJ seg "start_time", segTimeJ seg "end_time" with
  | some fname, some st, some en =>
    match fs (pathStem fname ++ ".txt") with
    | .content c =>
      if pyStrip c ≠ "" then [ledgerHeader fmt fname st en, pyStrip c, ""]
      else []
    | _ => []
  | _, _, _ => []

/-- The warnings one ledger record contributes: one warning when its
transcript file is missing or unreadable. -/
def emitWarn (fs : String → FileRes) (seg : Json) : List String :=
  match segFilenameJ seg with
  | some fname =>
    match fs (pathStem fname ++ ".txt") with
    | .missing => ["Transcript not found: " ++ pathStem fname ++ ".txt"]
    | .unreadable => ["Could not read " ++ pathStem fname ++ ".txt"]
    | .content _ => []
  | none => []

/-- A ledger record is well formed when its filename is a string and its
recorded times (if present) are numeric. -/
def WellFormedSeg (seg : Json) : Prop :=
  (segFilenameJ seg).isSome ∧ (segTimeJ seg "start_time").isSome ∧
    (segTimeJ seg "end_time").isSome

instance (seg : Json) : Decidable (WellFormedSeg seg) := by
  unfold WellFormedSeg; infer_instance

/-- The ledger loop over well-formed records accumulates exactly the
per-record blocks and warnings, in ledger order. -/
lemma ledgerLoop_spec (fmt : ℚ → String) (fs : String → FileRes) :
    ∀ (segs : List Json), (∀ seg ∈ segs, WellFormedSeg seg) →
      ∀ parts warns, ledgerLoop fmt fs segs parts warns =
        .ok (parts ++ segs.flatMap (emitBlock fmt fs),
          warns ++ segs.flatMap (emitWarn fs)) := by
  intro segs
  induction segs with
  | nil => intro _ parts warns; simp [ledgerLoop]
  | cons seg rest ih =>
    intro hwf parts warns
    obtain ⟨hfn, hst, hen⟩ := hwf seg (by simp)
    obtain ⟨fname, hfname⟩ := Option.isSome_iff_exists.mp hfn
    obtain ⟨st, hst'⟩ := Option.isSome_iff_exists.mp hst
    obtain ⟨en, hen'⟩ := Option.isSome_iff_exists.mp hen
    have ihrest := ih (fun s hs => hwf s (List.mem_cons_of_mem seg hs))
    rcases hfs : fs (pathStem fname ++ ".txt") with _ | _ | c
    · simp only [ledgerLoop, hfname, hfs, ihrest, List.flatMap_cons,
        emitBlock, emitWarn, hfname, hst', hen', hfs]
      simp
    · simp only [ledgerLoop, hfname, hfs, ihrest, List.flatMap_cons,
        emitBlock, emitWarn, hfname, hst', hen', hfs]
      simp
    · by_cases hc : pyStrip c ≠ ""
      · simp only [ledgerLoop, hfname, hfs, if_pos hc, hst', hen', ihrest,
          List.flatMap_cons, emitBlock, emitWarn, hfname, hst', hen', hfs,
          if_pos hc]
        simp
      · simp only [ledgerLoop, hfname, hfs, if_neg hc, ihrest,
          List.flatMap_cons, emitBlock, emitWarn, hfname, hst', hen', hfs,
          if_neg hc]
        simp

/-- A successful dict lookup implies the key-membership test succeeds. -/
lemma jsonLookup_any (key : String) :
    ∀ (kvs : List (String × Json)) (v : Json),
      jsonLookup key kvs = some v →
      (kvs.any fun kv => kv.1 == key) = true := by
  intro kvs
  induction kvs with
  | nil => intro v h; simp [jsonLookup] at h
  | cons kv rest ih =>
    intro v h
    simp only [jsonLookup] at h
    by_cases hk : (kv.1 == key) = true
    · simp [List.any_cons, hk]
    · rw [if_neg hk] at h
      have hk' : (kv.1 == key) = false := by simpa using hk
      simp [List.any_cons, hk', ih v h]

/-- **C3**: in ledger-driven reassembly (well-formed ledger with a
`segments` list of well-formed records), `merge_transcripts` emits
exactly one labeled block per record whose transcript file reads as
non-empty after trimming, in ledger record order; its output does not
depend on the directory listing order; a record with a missing transcript
file contributes a warning and is skipped without aborting the rest; and
the function succeeds iff at least one block was collected. -/
theorem C3_ledger_reassembly (fmt : ℚ → String) (fs : String → FileRes)
    (listing listing' : List String) (kvs : List (String × Json))
    (segs : List Json)
    (hseg : jsonLookup "segments" kvs = some (.arr segs))
    (hwf : ∀ seg ∈ segs, WellFormedSeg seg) :
    mergeTranscripts fmt (some (.obj kvs)) fs listing =
      .ok ⟨true, segs.flatMap (emitBlock fmt fs),
        segs.flatMap (emitWarn fs),
        !(segs.flatMap (emitBlock fmt fs)).isEmpty⟩ ∧
    mergeTranscripts fmt (some (.obj kvs)) fs listing =
      mergeTranscripts fmt (some (.obj kvs)) fs listing' ∧
    (∀ out, mergeTranscripts fmt (some (.obj kvs)) fs listing = .ok out →
      (out.success = true ↔ out.parts ≠ [])) := by
  have hkvs : kvs ≠ [] := by
    intro h
    rw [h] at hseg
    simp [jsonLookup] at hseg
  have htr : truthy (Json.obj kvs) = true := by
    simp [truthy, hkvs]
  have hcont : jsonContains "segments" (Json.obj kvs) = some true := by
    simp only [jsonContains]
    rw [jsonLookup_any "segments" kvs _ hseg]
  have hfield : segField (Json.obj kvs) "segments" = some (.arr segs) := hseg
  have hmain : mergeTranscripts fmt (some (.obj kvs)) fs listing =
      .ok ⟨true, segs.flatMap (emitBlock fmt fs),
        segs.flatMap (emitWarn fs),
        !(segs.flatMap (emitBlock fmt fs)).isEmpty⟩ := by
    simp only [mergeTranscripts, htr, if_true, hcont, hfield,
      ledgerLoop_spec fmt fs segs hwf [] [], List.nil_append]
  refine ⟨hmain, ?_, ?_⟩
  · have hmain' : mergeTranscripts fmt (some (.obj kvs)) fs listing' =
        .ok ⟨true, segs.flatMap (emitBlock fmt fs),
          segs.flatMap (emitWarn fs),
          !(segs.flatMap (emitBlock fmt fs)).isEmpty⟩ := by
      simp only [mergeTranscripts, htr, if_true, hcont, hfield,
        ledgerLoop_spec fmt fs segs hwf [] [], List.nil_append]
    rw [hmain, hmain']
  · intro out hout
    rw [hmain] at hout
    injection hout with hout
    rw [← hout]
    simp

/-- Sample ledger used by the C3 witness: one record, present transcript. -/
def sampleSeg : Json :=
  .obj [("filename", .str "segment_001.wav"), ("start_time", .num 0),
    ("end_time", .num 41), ("duration", .num 41), ("segment_index", .num 1)]

/-- Sample ledger key/value list used by the C3 witness. -/
def sampleKvs : List (String × Json) :=
  [("source_file", .str "meeting.wav"), ("total_segments", .num 1),
    ("segments", .arr [sampleSeg])]

/-- Sample transcript directory used by the C3 witness. -/
def sampleFs : String → FileRes := fun n =>
  if n == "segment_001.txt" then .content " hello " else .missing

/-- Witness for C3: with one well-formed record whose transcript file
contains ` hello `, the merger emits one trimmed, labeled block and
succeeds. -/
theorem C3_ledger_reassembly_witness :
    jsonLookup "segments" sampleKvs = some (.arr [sampleSeg]) ∧
    mergeTranscripts (fun _ => "0.0") (some (.obj sampleKvs)) sampleFs
      ["segment_001.txt"] =
      .ok ⟨true, ["=== segment_001.wav (0.0s - 0.0s) ===", "hello", ""],
        [], true⟩ :=
  ⟨rfl,
    (C3_ledger_reassembly (fun _ => "0.0") sampleFs ["segment_001.txt"] []
      sampleKvs [sampleSeg] rfl (by decide)).1⟩

/-- **C10**: a ledger that exists and parses with an empty `segments`
list still takes the primary (ledger-driven) path, collects zero blocks,
and returns failure; the filename fallback runs exactly when the ledger
is missing/unreadable (`none`), falsy, or reports no `segments` key, and
never when a truthy ledger contains the `segments` key. -/
theorem C10_empty_ledger_primary (fmt : ℚ → String) (fs : String → FileRes)
    (listing : List String) :
    mergeTranscripts fmt
        (some (.obj [("source_file", .str "meeting.wav"),
          ("total_segments", .num 0), ("segments", .arr [])])) fs listing =
      .ok ⟨true, [], [], false⟩ ∧
    (∀ j : Json, truthy j = false ∨ jsonContains "segments" j = some false →
      mergeTranscripts fmt (some j) fs listing =
        .ok (fallbackRun fs listing)) ∧
    mergeTranscripts fmt none fs listing = .ok (fallbackRun fs listing) ∧
    (∀ (j : Json) (out : MergeOut), truthy j = true →
      jsonContains "segments" j = some true →
      mergeTranscripts fmt (some j) fs listing = .ok out →
      out.usedLedger = true) := by
  refine ⟨rfl, ?_, rfl, ?_⟩
  · intro j hj
    rcases hj with hj | hj
    · simp only [mergeTranscripts, hj, Bool.false_eq_true, if_false]
    · by_cases htr : truthy j = true
      · simp only [mergeTranscripts, htr, if_true, hj]
      · have htr' : truthy j = false := by simpa using htr
        simp only [mergeTranscripts, htr', Bool.false_eq_true, if_false]
  · intro j out htr hcont hmerge
    simp only [mergeTranscripts, htr, if_true, hcont] at hmerge
    rcases hfield : segField j "segments" with _ | v
    · rw [hfield] at hmerge
      exact absurd hmerge (by simp)
    · cases v with
      | arr segs =>
        rw [hfield] at hmerge
        have hmerge' : (match ledgerLoop fmt fs segs [] [] with
            | Except.error _ => Except.error ()
            | Except.ok res =>
              Except.ok (⟨true, res.1, res.2, !res.1.isEmpty⟩ : MergeOut)) =
            Except.ok out := hmerge
        rcases hloop : ledgerLoop fmt fs segs [] [] with _ | res
        · rw [hloop] at hmerge'
          have h2 : (Except.error () : Except Unit MergeOut) =
              Except.ok out := hmerge'
          exact absurd h2 (by simp)
        · rw [hloop] at hmerge'
          have h2 : Except.ok (⟨true, res.1, res.2, !res.1.isEmpty⟩ :
              MergeOut) = Except.ok out := hmerge'
          injection h2 with h2
          rw [← h2]
      | null =>
        rw [hfield] at hmerge
        exact absurd hmerge (by simp)
      | bool b =>
        rw [hfield] at hmerge
        exact absurd hmerge (by simp)
      | num q =>
        rw [hfield] at hmerge
        exact absurd hmerge (by simp)
      | str s =>
        rw [hfield] at hmerge
        exact absurd hmerge (by simp)
      | obj kvs =>
        rw [hfield] at hmerge
        exact absurd hmerge (by simp)

/-- Witness for C10: with a truthy ledger containing `segments`, the
primary path is taken (`usedLedger = true`). -/
theorem C10_empty_ledger_primary_witness :
    truthy (Json.obj [("source_file", Json.str "meeting.wav"),
        ("total_segments", Json.num 0), ("segments", Json.arr [])]) = true ∧
    (⟨true, [], [], false⟩ : MergeOut).usedLedger = true :=
  ⟨rfl,
    (C10_empty_ledger_primary (fun _ => "0.0") (fun _ => .missing) []).2.2.2
      (Json.obj [("source_file", Json.str "meeting.wav"),
        ("total_segments", Json.num 0), ("segments", Json.arr [])])
      ⟨true, [], [], false⟩ rfl rfl
      (C10_empty_ledger_primary (fun _ => "0.0") (fun _ => .missing) []).1⟩

end WhisperScript
